import Mathlib

/-!
Verification development for the matcher engine (v6, `src/unnamed/part_000`,
with the v5 revision `src/tools/matcher.js` embedded where a claim compares
the two).  Text is modelled as `List Char`, positions as `Nat`.  The
character classes `\s` and `\p{P}` and the `/i` case folding are modelled on
their ASCII fragments (every concrete input below is ASCII).  Regex
fragments are modelled as a small AST (`Frag`) mirroring exactly the regex
strings the source builds, and matching is a fuel-indexed backtracking
interpreter with the same preference order as the JavaScript engine:
alternatives left to right, lazy stars shortest first, greedy stars longest
first, lookaround consuming nothing.
-/

namespace Matcher

/-- ASCII fragment of the regex class `\s` (space, tab, LF, CR, VT, FF). -/
def isWs (c : Char) : Bool :=
  c.toNat == 32 || c.toNat == 9 || c.toNat == 10 || c.toNat == 13 ||
  c.toNat == 11 || c.toNat == 12

/-- ASCII fragment of the Unicode class `\p{P}`:
`! " # % & ' ( ) * , - . / : ; ? @ [ \ ] _ { }`. -/
def isPunct (c : Char) : Bool :=
  c.toNat == 33 || c.toNat == 34 || c.toNat == 35 || c.toNat == 37 ||
  c.toNat == 38 || c.toNat == 39 || c.toNat == 40 || c.toNat == 41 ||
  c.toNat == 42 || c.toNat == 44 || c.toNat == 45 || c.toNat == 46 ||
  c.toNat == 47 || c.toNat == 58 || c.toNat == 59 || c.toNat == 63 ||
  c.toNat == 64 || c.toNat == 91 || c.toNat == 92 || c.toNat == 93 ||
  c.toNat == 95 || c.toNat == 123 || c.toNat == 125

/-- ASCII fragment of `String.prototype.toLowerCase`, applied per character. -/
def toLowerCh (c : Char) : Char :=
  if 65 ≤ c.toNat ∧ c.toNat ≤ 90 then Char.ofNat (c.toNat + 32) else c

/-- Character comparison of a text character `tc` against a pattern
character `pc`.  `cs = true` models a regex compiled without the `i` flag;
`cs = false` models the `i` flag (ASCII case folding; patterns on this path
were already lowercased by `parseWordEntry`). -/
def charMatch (cs : Bool) (tc pc : Char) : Bool :=
  if cs then tc.toNat == pc.toNat
  else tc.toNat == pc.toNat ||
    (65 ≤ tc.toNat && tc.toNat ≤ 90) && tc.toNat + 32 == pc.toNat

/-- The JavaScript values a raw word entry can be (`null`, `undefined`,
booleans, numbers, strings); `parseWordEntry` in v6 accepts any of them. -/
inductive JSVal where
  | nullv : JSVal
  | undef : JSVal
  | boolv : Bool → JSVal
  | numv : Int → JSVal
  | strv : String → JSVal
deriving DecidableEq

/-- JavaScript truthiness: `null`, `undefined`, `false`, `0` and `""` are
falsy. -/
def jsFalsy : JSVal → Bool
  | .nullv => true
  | .undef => true
  | .boolv b => !b
  | .numv n => n == 0
  | .strv s => s == ""

/-- The `String(·)` conversion. -/
def jsToString : JSVal → String
  | .nullv => "null"
  | .undef => "undefined"
  | .boolv b => if b then "true" else "false"
  | .numv n => toString n
  | .strv s => s

/-- Models the expression `String(rawEntry || "")` at the top of
`parseWordEntry` (v6): a falsy entry becomes the empty string, anything
else is converted by `String(·)`. -/
def jsCoerce (v : JSVal) : String :=
  if jsFalsy v then "" else jsToString v

/-- Drop leading and trailing whitespace, modelling `String.prototype.trim`. -/
def trimList (l : List Char) : List Char :=
  ((l.dropWhile isWs).reverse.dropWhile isWs).reverse

/-- Parse result of one raw word entry (`parseWordEntry`, v6 lines 29-70). -/
structure Parsed where
  pattern : List Char
  exact : Bool
  caseSensitive : Bool
  boundaryBefore : Bool
  boundaryAfter : Bool
  hasWildcard : Bool
deriving DecidableEq

/-- STEP 1 of the engine (v6): parse a raw word entry into a structured
object, or `none` (the skip signal) when nothing remains after trimming.
Mirrors `parseWordEntry` line by line: coerce, strip `CS:`, strip `//`,
detect boundary whitespace before trimming, trim, lowercase unless
case-sensitive, detect wildcards. -/
def parseWordEntry (rawEntry : JSVal) : Option Parsed :=
  let t0 := (jsCoerce rawEntry).toList
  let cs := ("CS:".toList).isPrefixOf t0
  let t1 := if cs then t0.drop 3 else t0
  let ex := ("//".toList).isPrefixOf t1
  let t2 := if ex then t1.drop 2 else t1
  let bB := match t2 with
    | [] => false
    | c :: _ => isWs c
  let bA := match t2.getLast? with
    | some c => isWs c
    | none => false
  let t3 := trimList t2
  if t3 = [] then none
  else
    let t4 := if cs then t3 else t3.map toLowerCh
    some { pattern := t4
           exact := ex
           caseSensitive := cs
           boundaryBefore := ex || bB
           boundaryAfter := ex || bA
           hasWildcard := t4.contains '*' || t4.contains '?' }

/-- Regex-fragment atoms.  Each constructor models the exact piece of regex
text `globToRegexFragment` / `compileWordToRegexFragment` emit:
`lit c` a literal (possibly escaped) character, `edgeStar` the greedy
`[^\s\p{P}]*`, `midStarAny` the lazy `[\s\S]*?`, `midStarNoSpace` the lazy
`[^\s]*?`, `anyOne` the class `[\s\S]`, `noSpaceOne` the class `[^\s]`,
`lookBefore` the assertion `(?:^|(?<=[\s\p{P}]))`, `lookAfter` the
assertion `(?=$|[\s\p{P}])`. -/
inductive Frag where
  | lit : Char → Frag
  | edgeStar : Frag
  | midStarAny : Frag
  | midStarNoSpace : Frag
  | anyOne : Frag
  | noSpaceOne : Frag
  | lookBefore : Frag
  | lookAfter : Frag
deriving DecidableEq

/-- The atom emitted for one pattern character, following the branch
structure of `globToRegexFragment` (v6 lines 84-111): `*` at an edge is the
token-bounded star, `*` in the middle spans anything when the pattern has a
literal space and stays inside the token otherwise; `?` follows the same
space-sensitivity rule; every other character (a literal space included) is
emitted literally, the escaping branch only protecting regex
metacharacters. -/
def fragFor (hasLiteralSpace : Bool) (n i : Nat) (ch : Char) : Frag :=
  if ch = '*' then
    if i = 0 ∨ i = n - 1 then Frag.edgeStar
    else if hasLiteralSpace then Frag.midStarAny
    else Frag.midStarNoSpace
  else if ch = '?' then
    if hasLiteralSpace then Frag.anyOne else Frag.noSpaceOne
  else Frag.lit ch

/-- STEP 2 (v6): convert a glob pattern into the list of regex atoms. -/
def globToRegexFragment (pattern : List Char) : List Frag :=
  let n := pattern.length
  let hs := pattern.contains '\x20'
  pattern.enum.map fun p => fragFor hs n p.1 p.2

/-- STEP 3 (v6): wrap the glob fragment with the zero-width boundary
assertions when the parse result asks for them. -/
def compileWordToRegexFragment (parsed : Parsed) : List Frag :=
  (if parsed.boundaryBefore then [Frag.lookBefore] else []) ++
  globToRegexFragment parsed.pattern ++
  (if parsed.boundaryAfter then [Frag.lookAfter] else [])

/-- One compiled word inside a bucket: its atom list and the length of its
parsed pattern (used by the descending-length sort in `compileCategory`). -/
structure PWord where
  frags : List Frag
  patLen : Nat
deriving DecidableEq

/-- One compiled `RegExp` of a category: the alternation of its words (in
the order the alternation string joins them), whether the `i` flag is
absent (`cs`), and the bucket-level `isWildcard` tag. -/
structure Rex where
  words : List PWord
  cs : Bool
  isWildcard : Bool
deriving DecidableEq

/-- Stable insertion of a word into a list sorted by descending pattern
length, modelling `items.sort((a, b) => b.parsed.pattern.length -
a.parsed.pattern.length)` (a stable sort; ties keep their original order). -/
def insertByLenDesc (x : PWord) : List PWord → List PWord
  | [] => [x]
  | y :: ys => if y.patLen < x.patLen then x :: y :: ys else y :: insertByLenDesc x ys

/-- Stable sort by descending pattern length. -/
def sortByLenDesc (l : List PWord) : List PWord :=
  l.foldl (fun acc x => insertByLenDesc x acc) []

/-- The four buckets of `compileCategory` (case-sensitivity × wildcard). -/
structure Buckets where
  sensSimple : List PWord
  sensWild : List PWord
  insSimple : List PWord
  insWild : List PWord

/-- Push one parsed word into its bucket, preserving order of arrival. -/
def pushBucket (bs : Buckets) (parsed : Parsed) : Buckets :=
  let w : PWord := { frags := compileWordToRegexFragment parsed
                     patLen := parsed.pattern.length }
  match parsed.caseSensitive, parsed.hasWildcard with
  | true, false => { bs with sensSimple := bs.sensSimple ++ [w] }
  | true, true => { bs with sensWild := bs.sensWild ++ [w] }
  | false, false => { bs with insSimple := bs.insSimple ++ [w] }
  | false, true => { bs with insWild := bs.insWild ++ [w] }

/-- A category as the engine receives it.  `enabled = none` models an
absent `enabled` property (v6 skips a category only when it is literally
`false`). -/
structure Category where
  id : String
  name : String
  color : Option String
  fColor : Option String
  enabled : Option Bool
  words : List JSVal

/-- A compiled category (v6: `{id, name, color, fColor, regexes}`). -/
structure CompiledCat where
  id : String
  name : String
  color : Option String
  fColor : Option String
  regexes : List Rex
deriving DecidableEq

/-- Build one bucket's `RegExp`: sort the surviving words by descending
pattern length, then join them (non-capturing groups keep alternation
order).  In the AST model the `RegExp` constructor cannot fail, so the
`try/catch` of the source is not represented. -/
def mkRex (cs isWildcard : Bool) (items : List PWord) : Option Rex :=
  if items.isEmpty then none
  else some { words := sortByLenDesc items, cs := cs, isWildcard := isWildcard }

/-- STEP 4 (v6 `compileCategory`): parse every word, partition the
survivors into the four buckets, and compile each nonempty bucket in the
object-literal key order `sensitive_simple, sensitive_wild,
insensitive_simple, insensitive_wild`.  Returns `none` when no bucket
survives. -/
def compileCategory (cat : Category) : Option CompiledCat :=
  let bs := cat.words.foldl
    (fun bs w =>
      match parseWordEntry w with
      | none => bs
      | some parsed => pushBucket bs parsed)
    ⟨[], [], [], []⟩
  let regexes :=
    [mkRex true false bs.sensSimple, mkRex true true bs.sensWild,
     mkRex false false bs.insSimple, mkRex false true bs.insWild].reduceOption
  if regexes.isEmpty then none
  else some { id := cat.id, name := cat.name, color := cat.color,
              fColor := cat.fColor, regexes := regexes }

/-- The `(?:^|(?<=[\s\p{P}]))` assertion at text position `p`: start of
text, or the previous character is whitespace or punctuation. -/
def boundBeforeOk (t : List Char) (p : Nat) : Bool :=
  if p = 0 then true
  else
    match t[p - 1]? with
    | some c => isWs c || isPunct c
    | none => false

/-- The `(?=$|[\s\p{P}])` assertion at text position `p`: end of text, or
the next character is whitespace or punctuation. -/
def boundAfterOk (t : List Char) (p : Nat) : Bool :=
  match t[p]? with
  | some c => isWs c || isPunct c
  | none => true

/-- Backtracking interpreter for one word's atom list, anchored at position
`p`, returning the end position of the first successful parse in the
JavaScript engine's preference order: lazy stars try the continuation
before consuming, the greedy `edgeStar` consumes as much as possible before
falling back, assertions consume nothing.  `fuel` is a structural bound on
the recursion; every caller supplies more fuel than the recursion can use
(each step either advances `p`, which never exceeds `t.length`, or shortens
the atom list, which never grows), so the `fuel = 0` answer `none` is never
reached from the entry points below. -/
def matchFragsF (cs : Bool) (t : List Char) :
    Nat → List Frag → Nat → Option Nat
  | 0, _, _ => none
  | _ + 1, [], p => some p
  | fuel + 1, Frag.lit c :: fs, p =>
      match t[p]? with
      | some tc => if charMatch cs tc c then matchFragsF cs t fuel fs (p + 1) else none
      | none => none
  | fuel + 1, Frag.anyOne :: fs, p =>
      match t[p]? with
      | some _ => matchFragsF cs t fuel fs (p + 1)
      | none => none
  | fuel + 1, Frag.noSpaceOne :: fs, p =>
      match t[p]? with
      | some tc => if isWs tc then none else matchFragsF cs t fuel fs (p + 1)
      | none => none
  | fuel + 1, Frag.midStarAny :: fs, p =>
      match matchFragsF cs t fuel fs p with
      | some e => some e
      | none =>
          match t[p]? with
          | some _ => matchFragsF cs t fuel (Frag.midStarAny :: fs) (p + 1)
          | none => none
  | fuel + 1, Frag.midStarNoSpace :: fs, p =>
      match matchFragsF cs t fuel fs p with
      | some e => some e
      | none =>
          match t[p]? with
          | some tc =>
              if isWs tc then none
              else matchFragsF cs t fuel (Frag.midStarNoSpace :: fs) (p + 1)
          | none => none
  | fuel + 1, Frag.edgeStar :: fs, p =>
      match t[p]? with
      | some tc =>
          if isWs tc || isPunct tc then matchFragsF cs t fuel fs p
          else
            match matchFragsF cs t fuel (Frag.edgeStar :: fs) (p + 1) with
            | some e => some e
            | none => matchFragsF cs t fuel fs p
      | none => matchFragsF cs t fuel fs p
  | fuel + 1, Frag.lookBefore :: fs, p =>
      if boundBeforeOk t p then matchFragsF cs t fuel fs p else none
  | fuel + 1, Frag.lookAfter :: fs, p =>
      if boundAfterOk t p then matchFragsF cs t fuel fs p else none

/-- Fuel that strictly dominates the recursion depth of `matchFragsF`:
along any call chain the measure `(t.length - p, fs.length)` decreases
lexicographically, so the chain is shorter than this product. -/
def fragFuel (t : List Char) (fs : List Frag) : Nat :=
  (t.length + 1) * (fs.length + 1) + 1

/-- Try the alternation at position `p`: the first word (in alternation
order) whose parse succeeds determines the match end, as in a JavaScript
alternation. -/
def matchRexAt (r : Rex) (t : List Char) (p : Nat) : Option Nat :=
  r.words.findSome? fun w => matchFragsF r.cs t (fragFuel t w.frags) w.frags p

/-- One `exec` call at `lastIndex = i`: try positions `i, i+1, ...` up to
the text length and return the leftmost match `(start, end)`.  The fuel is
one per candidate position. -/
def execFromF (r : Rex) (t : List Char) : Nat → Nat → Option (Nat × Nat)
  | 0, _ => none
  | fuel + 1, i =>
      if t.length < i then none
      else
        match matchRexAt r t i with
        | some e => some (i, e)
        | none => execFromF r t fuel (i + 1)

/-- `exec` with always-sufficient fuel (`t.length + 2` positions cover
`i ≤ t.length` entirely). -/
def execFrom (r : Rex) (t : List Char) (i : Nat) : Option (Nat × Nat) :=
  execFromF r t (t.length + 2) i

/-- The `while ((m = re.exec(text)) !== null)` loop of `findMatches`,
collecting `(start, end)` spans and threading `lastIndex`: a zero-length
match is skipped by advancing one position, a real match advances to its
end, and the final failing `exec` resets `lastIndex` to 0 (the JavaScript
behaviour for a global regex).  Returns the spans and the final
`lastIndex`.  The position strictly increases every iteration, so
`t.length + 2` iterations of fuel always suffice. -/
def scanLoopF (r : Rex) (t : List Char) : Nat → Nat → List (Nat × Nat) × Nat
  | 0, _ => ([], 0)
  | fuel + 1, li =>
      match execFrom r t li with
      | none => ([], 0)
      | some (p, e) =>
          if e = p then scanLoopF r t fuel (p + 1)
          else
            let rest := scanLoopF r t fuel e
            ((p, e) :: rest.1, rest.2)

/-- All spans one compiled regex contributes on `t` (the loop run from a
freshly reset `lastIndex = 0`, as `findMatches` does). -/
def scanRex (r : Rex) (t : List Char) : List (Nat × Nat) :=
  (scanLoopF r t (t.length + 2) 0).1

/-- The configuration `compileAll` receives. -/
structure Config where
  ignoreList : List JSVal
  categories : List Category

/-- The compiled configuration (v6: `{ignoreCompiled, compiledCategories}`). -/
structure CompiledConfig where
  ignoreCompiled : Option CompiledCat
  compiledCategories : List CompiledCat
deriving DecidableEq

/-- STEP 5 (v6 `compileAll`): compile the ignore list as a pseudo-category
when it is nonempty, then every category in order, skipping those with
`enabled === false` and those that compile to nothing. -/
def compileAll (config : Config) : CompiledConfig :=
  let ignoreCompiled :=
    if config.ignoreList.isEmpty then none
    else compileCategory
      { id := "__ignore__", name := "Ignore List", color := none,
        fColor := none, enabled := none, words := config.ignoreList }
  let compiledCategories := config.categories.foldl
    (fun acc cat =>
      if cat.enabled = some false then acc
      else
        match compileCategory cat with
        | some cc => acc ++ [cc]
        | none => acc)
    []
  { ignoreCompiled := ignoreCompiled, compiledCategories := compiledCategories }

/-- An ignore-match range (half-open `[start, stop)`; the source's field
`end` is a Lean keyword, rendered `stop` throughout). -/
structure Range where
  start : Nat
  stop : Nat
deriving DecidableEq

/-- A raw match candidate as pushed onto `allMatches` (v6 lines 274-282). -/
structure Cand where
  start : Nat
  stop : Nat
  name : String
  color : Option String
  fColor : Option String
  priority : Nat
  isWildcard : Bool
deriving DecidableEq

/-- A final output record (v6 lines 347-353). -/
structure OutMatch where
  start : Nat
  stop : Nat
  categoryName : String
  color : Option String
  fColor : Option String
deriving DecidableEq

/-- Stable insertion by ascending `start`, modelling
`ignoreRanges.sort((a, b) => a.start - b.start)`. -/
def insertRange (x : Range) : List Range → List Range
  | [] => [x]
  | y :: ys => if x.start < y.start then x :: y :: ys else y :: insertRange x ys

/-- Stable sort of the ignore ranges by ascending `start`. -/
def sortRanges (l : List Range) : List Range :=
  l.foldl (fun acc x => insertRange x acc) []

/-- The binary-search loop of the v6 ignore filter (lines 293-301),
verbatim: indices are JavaScript numbers, modelled as `Int` (`hi` starts at
`length - 1` and may reach `-1`); `(lo + hi) >> 1` is division by two on
the nonnegative values this loop produces.  The out-of-range lookup branch
is unreachable because `0 ≤ lo ≤ mid ≤ hi ≤ length - 1` whenever it is
read.  Fuel: the width `hi - lo` shrinks every iteration, so
`length + 2` iterations always suffice. -/
def binLoopF (rs : List Range) (mStart : Nat) : Nat → Int → Int → Int
  | 0, lo, _ => lo
  | fuel + 1, lo, hi =>
      if lo ≤ hi then
        let mid := (lo + hi) / 2
        match rs[mid.toNat]? with
        | some r =>
            if r.stop ≤ mStart then binLoopF rs mStart fuel (mid + 1) hi
            else binLoopF rs mStart fuel lo (mid - 1)
        | none => lo
      else lo

/-- The forward scan from `lo` (v6 lines 303-308): stop at the first range
starting at or beyond the candidate's end, reject on overlap. -/
def checkFrom (mStart mEnd : Nat) : List Range → Bool
  | [] => true
  | r :: rest =>
      if mEnd ≤ r.start then true
      else if mStart < r.stop && mEnd > r.start then false
      else checkFrom mStart mEnd rest

/-- The v6 ignore filter predicate: `true` keeps the candidate. -/
def keepV6 (rs : List Range) (mStart mEnd : Nat) : Bool :=
  let lo := binLoopF rs mStart (rs.length + 2) 0 ((rs.length : Int) - 1)
  checkFrom mStart mEnd (rs.drop lo.toNat)

/-- The v5 ignore filter predicate (`src/tools/matcher.js` lines 302-307):
keep the candidate unless some ignore range shares a character position
with it. -/
def keepV5 (rs : List Range) (mStart mEnd : Nat) : Bool :=
  !(rs.any fun ig => mStart < ig.stop && mEnd > ig.start)

/-- The strict order of the v6 candidate sort comparator (lines 315-321):
earlier start first; on a tie the longer span first; on a further tie the
lower `priority` first. -/
def candLT (a b : Cand) : Bool :=
  decide (a.start < b.start) ||
  (decide (a.start = b.start) &&
    (decide (b.stop - b.start < a.stop - a.start) ||
      (decide (a.stop - a.start = b.stop - b.start) &&
        decide (a.priority < b.priority))))

/-- Stable insertion for the candidate sort: a later-arriving candidate
passes an earlier one only when it is strictly smaller, which is exactly
the stability guarantee of `Array.prototype.sort`. -/
def insertCand (x : Cand) : List Cand → List Cand
  | [] => [x]
  | y :: ys => if candLT x y then x :: y :: ys else y :: insertCand x ys

/-- Stable sort of the surviving candidates by the v6 comparator. -/
def sortCands (l : List Cand) : List Cand :=
  l.foldl (fun acc x => insertCand x acc) []

/-- `pickBetterOverlap` (v6 lines 217-239), verbatim: non-wildcard beats
wildcard; else the lower priority number; else the longer span; else the
earlier start; else the earlier end; else the incumbent `a`. -/
def pickBetterOverlap (a b : Cand) : Cand :=
  if a.isWildcard ≠ b.isWildcard then (if a.isWildcard then b else a)
  else if a.priority ≠ b.priority then (if a.priority < b.priority then a else b)
  else if a.stop - a.start ≠ b.stop - b.start then
    (if b.stop - b.start < a.stop - a.start then a else b)
  else if a.start ≠ b.start then (if a.start < b.start then a else b)
  else if a.stop ≠ b.stop then (if a.stop < b.stop then a else b)
  else a

/-- The left-to-right sweep of the overlap resolver (v6 lines 326-345) with
the current `winner` in hand: a non-overlapping candidate finalises the
winner, an overlapping one challenges it through `pickBetterOverlap`. -/
def sweepGo (winner : Cand) : List Cand → List Cand
  | [] => [winner]
  | m :: rest =>
      if m.start < winner.stop && m.stop > winner.start then
        sweepGo (pickBetterOverlap winner m) rest
      else winner :: sweepGo m rest

/-- The overlap resolver on the sorted candidate list. -/
def resolveSweep : List Cand → List Cand
  | [] => []
  | w :: rest => sweepGo w rest

/-- Strip the resolver-internal fields (v6 lines 347-353). -/
def stripCand (c : Cand) : OutMatch :=
  { start := c.start, stop := c.stop, categoryName := c.name,
    color := c.color, fColor := c.fColor }

/-- All ignore ranges of a scan: every ignore regex scanned in order, the
results pooled and sorted by ascending start (v6 lines 248-260). -/
def ignoreRangesOf (t : List Char) : Option CompiledCat → List Range
  | none => []
  | some ic =>
      sortRanges ((ic.regexes.map fun rx =>
        (scanRex rx t).map fun pe => Range.mk pe.1 pe.2).flatten)

/-- All category candidates of a scan, in the order the nested loops of
v6 lines 263-285 push them. -/
def collectAll (t : List Char) (cats : List CompiledCat) : List Cand :=
  (cats.enum.map fun ic =>
    (ic.2.regexes.map fun rx =>
      (scanRex rx t).map fun pe =>
        Cand.mk pe.1 pe.2 ic.2.name ic.2.color ic.2.fColor ic.1 rx.isWildcard).flatten).flatten

/-- STEP 6 (v6 `findMatches`): collect ignore ranges and category
candidates, filter by the binary-search ignore test when there are ignore
ranges, sort, sweep, and strip. -/
def findMatches (t : List Char) (compiled : CompiledConfig) : List OutMatch :=
  let ignoreRanges := ignoreRangesOf t compiled.ignoreCompiled
  let allMatches := collectAll t compiled.compiledCategories
  let filtered :=
    if ignoreRanges.isEmpty then allMatches
    else allMatches.filter fun m => keepV6 ignoreRanges m.start m.stop
  if filtered.isEmpty then []
  else (resolveSweep (sortCands filtered)).map stripCand

/-- A compiled `RegExp` object together with its one mutable property,
`lastIndex`.  Everything else in a compiled configuration is only ever
read by `findMatches`; `lastIndex` is written (`re.lastIndex = 0` before
each scan loop, by `exec` during it, and to 0 by the final failing `exec`
of a global regex). -/
structure RexSt where
  rex : Rex
  lastIndex : Nat
deriving DecidableEq

/-- A compiled category with stateful regex objects. -/
structure CompiledCatSt where
  id : String
  name : String
  color : Option String
  fColor : Option String
  regexes : List RexSt
deriving DecidableEq

/-- A compiled configuration with stateful regex objects. -/
structure CompiledConfigSt where
  ignoreCompiled : Option CompiledCatSt
  compiledCategories : List CompiledCatSt
deriving DecidableEq

/-- Forget the mutable `lastIndex` of every regex. -/
def stripCatSt (c : CompiledCatSt) : CompiledCat :=
  { id := c.id, name := c.name, color := c.color, fColor := c.fColor,
    regexes := c.regexes.map (·.rex) }

/-- Forget the mutable state of a whole compiled configuration. -/
def stripSt (s : CompiledConfigSt) : CompiledConfig :=
  { ignoreCompiled := s.ignoreCompiled.map stripCatSt,
    compiledCategories := s.compiledCategories.map stripCatSt }

/-- The effect of one scan on one regex object: the loop starts from the
explicit reset `re.lastIndex = 0` (so the stored value is never read) and
leaves behind the final `lastIndex` of the loop. -/
def stepRexSt (t : List Char) (r : RexSt) : RexSt :=
  { r with lastIndex := (scanLoopF r.rex t (t.length + 2) 0).2 }

/-- The effect of one scan on a compiled category's regex objects. -/
def stepCatSt (t : List Char) (c : CompiledCatSt) : CompiledCatSt :=
  { c with regexes := c.regexes.map (stepRexSt t) }

/-- `findMatches` over the stateful model: the match list is computed from
the immutable data only (faithful to the source, which resets `lastIndex`
before every scan loop), and the returned configuration reflects the writes
to each regex's `lastIndex`. -/
def findMatchesSt (t : List Char) (s : CompiledConfigSt) :
    List OutMatch × CompiledConfigSt :=
  (findMatches t (stripSt s),
   { ignoreCompiled := s.ignoreCompiled.map (stepCatSt t),
     compiledCategories := s.compiledCategories.map (stepCatSt t) })

/-- Set every regex's `lastIndex` to 0. -/
def zeroCatSt (c : CompiledCatSt) : CompiledCatSt :=
  { c with regexes := c.regexes.map fun r => { r with lastIndex := 0 } }

/-- Set every regex's `lastIndex` to 0 in a whole configuration. -/
def zeroSt (s : CompiledConfigSt) : CompiledConfigSt :=
  { ignoreCompiled := s.ignoreCompiled.map zeroCatSt,
    compiledCategories := s.compiledCategories.map zeroCatSt }

/-- Attach the initial `lastIndex = 0` state of freshly constructed
`RegExp` objects to a compiled category. -/
def freshCatSt (c : CompiledCat) : CompiledCatSt :=
  { id := c.id, name := c.name, color := c.color, fColor := c.fColor,
    regexes := c.regexes.map fun r => { rex := r, lastIndex := 0 } }

/-- `compileAll` over the stateful model: the pure compilation with fresh
(`lastIndex = 0`) regex objects. -/
def compileAllSt (config : Config) : CompiledConfigSt :=
  let c := compileAll config
  { ignoreCompiled := c.ignoreCompiled.map freshCatSt,
    compiledCategories := c.compiledCategories.map freshCatSt }

/-! ### Lemmas about the matching interpreter -/

theorem matchFragsF_bounds {cs : Bool} {t : List Char} :
    ∀ {fuel : Nat} {fs : List Frag} {p e : Nat}, p ≤ t.length →
      matchFragsF cs t fuel fs p = some e → p ≤ e ∧ e ≤ t.length := by
  intro fuel
  induction fuel with
  | zero => intro fs p e _ h; simp [matchFragsF] at h
  | succ n ih =>
    intro fs p e hp h
    match fs with
    | [] =>
      simp only [matchFragsF, Option.some.injEq] at h
      omega
    | Frag.lit c :: fs =>
      simp only [matchFragsF] at h
      cases hg : t[p]? with
      | none => simp only [hg] at h; simp at h
      | some tc =>
        simp only [hg] at h
        have hlt : p < t.length := (List.getElem?_eq_some_iff.mp hg).1
        by_cases hm : charMatch cs tc c
        · rw [if_pos hm] at h
          have := ih (by omega) h
          omega
        · rw [if_neg hm] at h; simp at h
    | Frag.anyOne :: fs =>
      simp only [matchFragsF] at h
      cases hg : t[p]? with
      | none => simp only [hg] at h; simp at h
      | some tc =>
        simp only [hg] at h
        have hlt : p < t.length := (List.getElem?_eq_some_iff.mp hg).1
        have := ih (by omega) h
        omega
    | Frag.noSpaceOne :: fs =>
      simp only [matchFragsF] at h
      cases hg : t[p]? with
      | none => simp only [hg] at h; simp at h
      | some tc =>
        simp only [hg] at h
        have hlt : p < t.length := (List.getElem?_eq_some_iff.mp hg).1
        by_cases hm : isWs tc
        · rw [if_pos hm] at h; simp at h
        · rw [if_neg hm] at h
          have := ih (by omega) h
          omega
    | Frag.midStarAny :: fs =>
      simp only [matchFragsF] at h
      cases hr : matchFragsF cs t n fs p with
      | some e₀ =>
        simp only [hr] at h
        simp only [Option.some.injEq] at h
        subst h
        exact ih hp hr
      | none =>
        simp only [hr] at h
        cases hg : t[p]? with
        | none => simp only [hg] at h; simp at h
        | some tc =>
          simp only [hg] at h
          have hlt : p < t.length := (List.getElem?_eq_some_iff.mp hg).1
          have := ih (by omega) h
          omega
    | Frag.midStarNoSpace :: fs =>
      simp only [matchFragsF] at h
      cases hr : matchFragsF cs t n fs p with
      | some e₀ =>
        simp only [hr] at h
        simp only [Option.some.injEq] at h
        subst h
        exact ih hp hr
      | none =>
        simp only [hr] at h
        cases hg : t[p]? with
        | none => simp only [hg] at h; simp at h
        | some tc =>
          simp only [hg] at h
          have hlt : p < t.length := (List.getElem?_eq_some_iff.mp hg).1
          by_cases hm : isWs tc
          · rw [if_pos hm] at h; simp at h
          · rw [if_neg hm] at h
            have := ih (by omega) h
            omega
    | Frag.edgeStar :: fs =>
      simp only [matchFragsF] at h
      cases hg : t[p]? with
      | none => simp only [hg] at h; exact ih hp h
      | some tc =>
        simp only [hg] at h
        have hlt : p < t.length := (List.getElem?_eq_some_iff.mp hg).1
        by_cases hm : isWs tc || isPunct tc
        · rw [if_pos hm] at h; exact ih hp h
        · rw [if_neg hm] at h
          cases hr : matchFragsF cs t n (Frag.edgeStar :: fs) (p + 1) with
          | some e₀ =>
            simp only [hr] at h
            simp only [Option.some.injEq] at h
            subst h
            have := ih (by omega) hr
            omega
          | none => simp only [hr] at h; exact ih hp h
    | Frag.lookBefore :: fs =>
      simp only [matchFragsF] at h
      by_cases hb : boundBeforeOk t p
      · rw [if_pos hb] at h; exact ih hp h
      · rw [if_neg hb] at h; simp at h
    | Frag.lookAfter :: fs =>
      simp only [matchFragsF] at h
      by_cases hb : boundAfterOk t p
      · rw [if_pos hb] at h; exact ih hp h
      · rw [if_neg hb] at h; simp at h

/-- Atoms that can only ever consume non-whitespace characters: literal
non-whitespace characters, the whitespace-excluding classes and stars, and
the zero-width assertions. -/
def wsFreeFrag : Frag → Bool
  | Frag.lit c => !isWs c
  | Frag.edgeStar => true
  | Frag.midStarNoSpace => true
  | Frag.noSpaceOne => true
  | Frag.lookBefore => true
  | Frag.lookAfter => true
  | Frag.midStarAny => false
  | Frag.anyOne => false

/-- A matched character equal (up to the `i` flag's ASCII folding) to a
non-whitespace pattern character is itself non-whitespace. -/
theorem charMatch_not_ws {cs : Bool} {tc pc : Char}
    (hm : charMatch cs tc pc = true) (hw : isWs pc = false) : isWs tc = false := by
  unfold isWs at hw ⊢
  simp only [Bool.or_eq_false_iff, beq_eq_false_iff_ne, ne_eq] at hw ⊢
  unfold charMatch at hm
  split at hm
  · simp only [beq_iff_eq] at hm
    omega
  · simp only [Bool.or_eq_true, Bool.and_eq_true, beq_iff_eq,
      decide_eq_true_eq] at hm
    omega

/-- If every atom of `fs` is whitespace-free, a successful parse from `p`
to `e` passes over no whitespace character. -/
theorem matchFragsF_wsFree {cs : Bool} {t : List Char} :
    ∀ {fuel : Nat} {fs : List Frag} {p e : Nat},
      (∀ f ∈ fs, wsFreeFrag f = true) →
      matchFragsF cs t fuel fs p = some e →
      ∀ i, p ≤ i → i < e → ∀ c, t[i]? = some c → isWs c = false := by
  intro fuel
  induction fuel with
  | zero => intro fs p e _ h; simp [matchFragsF] at h
  | succ n ih =>
    intro fs p e hfree h i hpi hie c hc
    match fs with
    | [] =>
      simp only [matchFragsF, Option.some.injEq] at h
      omega
    | Frag.lit ch :: fs =>
      simp only [matchFragsF] at h
      cases hg : t[p]? with
      | none => simp only [hg] at h; simp at h
      | some tc =>
        simp only [hg] at h
        by_cases hm : charMatch cs tc ch
        · rw [if_pos hm] at h
          rcases Nat.eq_or_lt_of_le hpi with hq | hq
          · subst hq
            rw [hg] at hc
            cases hc
            exact charMatch_not_ws hm (by
              have := hfree _ (List.mem_cons_self ..)
              simpa [wsFreeFrag] using this)
          · exact ih (fun f hf => hfree f (List.mem_cons_of_mem _ hf)) h i hq hie c hc
        · rw [if_neg hm] at h; simp at h
    | Frag.anyOne :: fs =>
      exact absurd (hfree _ (List.mem_cons_self ..)) (by simp [wsFreeFrag])
    | Frag.midStarAny :: fs =>
      exact absurd (hfree _ (List.mem_cons_self ..)) (by simp [wsFreeFrag])
    | Frag.noSpaceOne :: fs =>
      simp only [matchFragsF] at h
      cases hg : t[p]? with
      | none => simp only [hg] at h; simp at h
      | some tc =>
        simp only [hg] at h
        by_cases hm : isWs tc
        · rw [if_pos hm] at h; simp at h
        · rw [if_neg hm] at h
          rcases Nat.eq_or_lt_of_le hpi with hq | hq
          · subst hq
            rw [hg] at hc
            cases hc
            simpa using hm
          · exact ih (fun f hf => hfree f (List.mem_cons_of_mem _ hf)) h i hq hie c hc
    | Frag.midStarNoSpace :: fs =>
      simp only [matchFragsF] at h
      cases hr : matchFragsF cs t n fs p with
      | some e₀ =>
        simp only [hr, Option.some.injEq] at h
        subst h
        exact ih (fun f hf => hfree f (List.mem_cons_of_mem _ hf)) hr i hpi hie c hc
      | none =>
        simp only [hr] at h
        cases hg : t[p]? with
        | none => simp only [hg] at h; simp at h
        | some tc =>
          simp only [hg] at h
          by_cases hm : isWs tc
          · rw [if_pos hm] at h; simp at h
          · rw [if_neg hm] at h
            rcases Nat.eq_or_lt_of_le hpi with hq | hq
            · subst hq
              rw [hg] at hc
              cases hc
              simpa using hm
            · exact ih hfree h i hq hie c hc
    | Frag.edgeStar :: fs =>
      simp only [matchFragsF] at h
      cases hg : t[p]? with
      | none =>
        simp only [hg] at h
        exact ih (fun f hf => hfree f (List.mem_cons_of_mem _ hf)) h i hpi hie c hc
      | some tc =>
        simp only [hg] at h
        by_cases hm : isWs tc || isPunct tc
        · rw [if_pos hm] at h
          exact ih (fun f hf => hfree f (List.mem_cons_of_mem _ hf)) h i hpi hie c hc
        · rw [if_neg hm] at h
          cases hr : matchFragsF cs t n (Frag.edgeStar :: fs) (p + 1) with
          | some e₀ =>
            simp only [hr, Option.some.injEq] at h
            subst h
            rcases Nat.eq_or_lt_of_le hpi with hq | hq
            · subst hq
              rw [hg] at hc
              cases hc
              simp only [Bool.or_eq_true, not_or] at hm
              simpa using hm.1
            · exact ih hfree hr i hq hie c hc
          | none =>
            simp only [hr] at h
            exact ih (fun f hf => hfree f (List.mem_cons_of_mem _ hf)) h i hpi hie c hc
    | Frag.lookBefore :: fs =>
      simp only [matchFragsF] at h
      by_cases hb : boundBeforeOk t p
      · rw [if_pos hb] at h
        exact ih (fun f hf => hfree f (List.mem_cons_of_mem _ hf)) h i hpi hie c hc
      · rw [if_neg hb] at h; simp at h
    | Frag.lookAfter :: fs =>
      simp only [matchFragsF] at h
      by_cases hb : boundAfterOk t p
      · rw [if_pos hb] at h
        exact ih (fun f hf => hfree f (List.mem_cons_of_mem _ hf)) h i hpi hie c hc
      · rw [if_neg hb] at h; simp at h

/-- A successful alternation match at `p` ends between `p` and the text
length. -/
theorem matchRexAt_bounds {r : Rex} {t : List Char} {p e : Nat}
    (hp : p ≤ t.length) (h : matchRexAt r t p = some e) :
    p ≤ e ∧ e ≤ t.length := by
  obtain ⟨w, _, hw⟩ := List.exists_of_findSome?_eq_some h
  exact matchFragsF_bounds hp hw

/-- A successful `exec` from `i` returns a span `(p, e)` with
`i ≤ p ≤ e ≤ t.length`. -/
theorem execFromF_bounds {r : Rex} {t : List Char} :
    ∀ {fuel i p e : Nat}, execFromF r t fuel i = some (p, e) →
      i ≤ p ∧ p ≤ e ∧ e ≤ t.length := by
  intro fuel
  induction fuel with
  | zero => intro i p e h; simp [execFromF] at h
  | succ n ih =>
    intro i p e h
    simp only [execFromF] at h
    by_cases hi : t.length < i
    · rw [if_pos hi] at h; simp at h
    · rw [if_neg hi] at h
      cases hm : matchRexAt r t i with
      | some e₀ =>
        simp only [hm, Option.some.injEq, Prod.mk.injEq] at h
        obtain ⟨rfl, rfl⟩ := h
        have := matchRexAt_bounds (by omega) hm
        omega
      | none =>
        simp only [hm] at h
        have := ih h
        omega

/-- Every span the scan loop collects is nonempty (`start < end`), lies
inside the text, and starts at or after the `lastIndex` the loop began
with. -/
theorem scanLoopF_mem_bounds {r : Rex} {t : List Char} :
    ∀ {fuel li p e : Nat}, (p, e) ∈ (scanLoopF r t fuel li).1 →
      li ≤ p ∧ p < e ∧ e ≤ t.length := by
  intro fuel
  induction fuel with
  | zero => intro li p e h; simp [scanLoopF] at h
  | succ n ih =>
    intro li p e h
    simp only [scanLoopF] at h
    cases hx : execFrom r t li with
    | none => simp only [hx] at h; simp at h
    | some pe =>
      obtain ⟨p₀, e₀⟩ := pe
      simp only [hx] at h
      have hb := execFromF_bounds hx
      by_cases he : e₀ = p₀
      · rw [if_pos he] at h
        have := ih h
        omega
      · rw [if_neg he] at h
        simp only [List.mem_cons, Prod.mk.injEq] at h
        rcases h with ⟨rfl, rfl⟩ | h
        · omega
        · have := ih h
          omega

/-- The spans of one regex's scan are within bounds and nonempty. -/
theorem scanRex_mem_bounds {r : Rex} {t : List Char} {p e : Nat}
    (h : (p, e) ∈ scanRex r t) : p < e ∧ e ≤ t.length := by
  have := scanLoopF_mem_bounds h
  omega

/-- The scan loop always leaves `lastIndex = 0` behind: the final failing
`exec` of a global regex resets it. -/
theorem scanLoopF_lastIndex_zero {r : Rex} {t : List Char} :
    ∀ {fuel li : Nat}, (scanLoopF r t fuel li).2 = 0 := by
  intro fuel
  induction fuel with
  | zero => intro li; simp [scanLoopF]
  | succ n ih =>
    intro li
    simp only [scanLoopF]
    cases hx : execFrom r t li with
    | none => simp
    | some pe =>
      obtain ⟨p₀, e₀⟩ := pe
      simp only [hx]
      by_cases he : e₀ = p₀
      · rw [if_pos he]; exact ih
      · rw [if_neg he]; simpa using ih

/-! ### Lemmas about the resolver pipeline -/

/-- Every pooled category candidate has a nonempty span inside the text. -/
theorem collectAll_mem_bounds {t : List Char} {cats : List CompiledCat}
    {c : Cand} (h : c ∈ collectAll t cats) :
    c.start < c.stop ∧ c.stop ≤ t.length := by
  unfold collectAll at h
  rw [List.mem_flatten] at h
  obtain ⟨l1, hl1, h⟩ := h
  rw [List.mem_map] at hl1
  obtain ⟨ic, _, rfl⟩ := hl1
  rw [List.mem_flatten] at h
  obtain ⟨l2, hl2, h⟩ := h
  rw [List.mem_map] at hl2
  obtain ⟨rx, _, rfl⟩ := hl2
  rw [List.mem_map] at h
  obtain ⟨pe, hpe, rfl⟩ := h
  exact scanRex_mem_bounds (p := pe.1) (e := pe.2) hpe

/-- Membership through stable candidate insertion. -/
theorem mem_insertCand {x y : Cand} : ∀ {l : List Cand},
    x ∈ insertCand y l → x = y ∨ x ∈ l := by
  intro l
  induction l with
  | nil => intro h; simpa [insertCand] using h
  | cons z zs ih =>
    intro h
    unfold insertCand at h
    by_cases hc : candLT y z
    · rw [if_pos hc] at h
      simpa using h
    · rw [if_neg hc] at h
      simp only [List.mem_cons] at h
      rcases h with rfl | h
      · simp
      · rcases ih h with h | h
        · exact Or.inl h
        · exact Or.inr (List.mem_cons_of_mem _ h)

/-- Membership through the candidate sort. -/
theorem mem_sortCands {x : Cand} {l : List Cand} (h : x ∈ sortCands l) :
    x ∈ l := by
  suffices hgen : ∀ (l : List Cand) (acc : List Cand),
      x ∈ l.foldl (fun acc x => insertCand x acc) acc → x ∈ acc ∨ x ∈ l by
    rcases hgen l [] h with h | h
    · simp at h
    · exact h
  intro l
  induction l with
  | nil => intro acc h; simpa using h
  | cons z zs ih =>
    intro acc h
    simp only [List.foldl_cons] at h
    rcases ih _ h with h | h
    · rcases mem_insertCand h with rfl | h
      · simp
      · exact Or.inl h
    · exact Or.inr (List.mem_cons_of_mem _ h)

/-- The comparator order is asymmetric. -/
theorem candLT_asymm {a b : Cand} (h : candLT a b = true) :
    candLT b a = false := by
  unfold candLT at h ⊢
  simp only [Bool.or_eq_true, Bool.and_eq_true, decide_eq_true_eq] at h
  simp only [Bool.or_eq_false_iff, Bool.and_eq_false_iff, decide_eq_false_iff_not]
  omega

/-- The comparator order is transitive. -/
theorem candLT_trans {a b c : Cand} (hab : candLT a b = true)
    (hbc : candLT b c = true) : candLT a c = true := by
  unfold candLT at hab hbc ⊢
  simp only [Bool.or_eq_true, Bool.and_eq_true, decide_eq_true_eq] at hab hbc ⊢
  omega

/-- Inserting into a list that is pairwise ordered by the comparator keeps
it pairwise ordered (`candLT b a = false` reads "b does not sort strictly
before a"). -/
theorem insertCand_pairwise {x : Cand} : ∀ {l : List Cand},
    l.Pairwise (fun a b => candLT b a = false) →
    (insertCand x l).Pairwise (fun a b => candLT b a = false) := by
  intro l
  induction l with
  | nil => intro _; simp [insertCand]
  | cons y ys ih =>
    intro hp
    rcases List.pairwise_cons.mp hp with ⟨hy, hys⟩
    unfold insertCand
    by_cases hc : candLT x y
    · rw [if_pos hc]
      refine List.pairwise_cons.mpr ⟨?_, hp⟩
      intro z hz
      simp only [List.mem_cons] at hz
      rcases hz with rfl | hz
      · exact candLT_asymm hc
      · by_contra hzx
        have hzx' : candLT z x = true := by
          cases hq : candLT z x
          · exact absurd hq hzx
          · rfl
        have := candLT_trans hzx' hc
        rw [hy z hz] at this
        cases this
    · rw [if_neg hc]
      refine List.pairwise_cons.mpr ⟨?_, ih hys⟩
      intro z hz
      rcases mem_insertCand hz with rfl | hz
      · cases hq : candLT z y
        · rfl
        · exact absurd hq hc
      · exact hy z hz


/-- The sorted candidate list is pairwise ordered by the v6 comparator. -/
theorem sortCands_pairwise (l : List Cand) :
    (sortCands l).Pairwise (fun a b => candLT b a = false) := by
  suffices hgen : ∀ (l acc : List Cand),
      acc.Pairwise (fun a b => candLT b a = false) →
      (l.foldl (fun acc x => insertCand x acc) acc).Pairwise
        (fun a b => candLT b a = false) by
    exact hgen l [] (by simp)
  intro l
  induction l with
  | nil => intro acc h; simpa using h
  | cons z zs ih =>
    intro acc h
    simp only [List.foldl_cons]
    exact ih _ (insertCand_pairwise h)

/-- The sorted candidate list is ascending in `start`. -/
theorem sortCands_start_mono (l : List Cand) :
    (sortCands l).Pairwise (fun a b => a.start ≤ b.start) := by
  refine (sortCands_pairwise l).imp ?_
  intro a b hab
  unfold candLT at hab
  simp only [Bool.or_eq_false_iff, Bool.and_eq_false_iff,
    decide_eq_false_iff_not] at hab
  omega

/-- `pickBetterOverlap` always returns one of its two arguments. -/
theorem pickBetterOverlap_mem (a b : Cand) :
    pickBetterOverlap a b = a ∨ pickBetterOverlap a b = b := by
  unfold pickBetterOverlap
  split_ifs <;> simp

/-- The resolver sweep, run on a start-sorted list of nonempty-span
candidates, produces a chain of non-overlapping spans drawn from its
input. -/
theorem sweepGo_spec :
    ∀ (l : List Cand) (w : Cand),
      (∀ x ∈ w :: l, x.start < x.stop) →
      (w :: l).Pairwise (fun a b => a.start ≤ b.start) →
      (sweepGo w l).Pairwise (fun a b => a.stop ≤ b.start) ∧
      (∀ x ∈ sweepGo w l, x ∈ w :: l) := by
  intro l
  induction l with
  | nil =>
    intro w _ _
    constructor
    · simp [sweepGo]
    · intro x hx; simpa [sweepGo] using hx
  | cons m rest ih =>
    intro w hwf hsort
    rcases List.pairwise_cons.mp hsort with ⟨hw, hsort'⟩
    rcases List.pairwise_cons.mp hsort' with ⟨hm, hrest⟩
    unfold sweepGo
    by_cases hov : m.start < w.stop && m.stop > w.start
    · rw [if_pos hov]
      have hwm : pickBetterOverlap w m = w ∨ pickBetterOverlap w m = m :=
        pickBetterOverlap_mem w m
      have hwf' : ∀ x ∈ pickBetterOverlap w m :: rest, x.start < x.stop := by
        intro x hx
        simp only [List.mem_cons] at hx
        rcases hx with rfl | hx
        · rcases hwm with hq | hq <;> rw [hq]
          · exact hwf w (by simp)
          · exact hwf m (by simp)
        · exact hwf x (by simp [hx])
      have hsort2 : (pickBetterOverlap w m :: rest).Pairwise
          (fun a b => a.start ≤ b.start) := by
        refine List.pairwise_cons.mpr ⟨?_, hrest⟩
        intro z hz
        rcases hwm with hq | hq <;> rw [hq]
        · exact hw z (by simp [hz])
        · exact hm z hz
      obtain ⟨hchain, hmem⟩ := ih (pickBetterOverlap w m) hwf' hsort2
      refine ⟨hchain, ?_⟩
      intro x hx
      have hx2 := hmem x hx
      simp only [List.mem_cons] at hx2 ⊢
      rcases hx2 with rfl | h
      · rcases hwm with hq | hq <;> rw [hq] <;> simp
      · simp [h]
    · rw [if_neg hov]
      obtain ⟨hchain, hmem⟩ := ih m (fun x hx => hwf x (by
        simp only [List.mem_cons] at hx ⊢
        tauto)) hsort'
      have hgap : w.stop ≤ m.start := by
        have h1 : w.start ≤ m.start := hw m (by simp)
        have h2 : m.start < m.stop := hwf m (by simp)
        simp only [Bool.and_eq_true, decide_eq_true_eq, not_and] at hov
        by_contra hq
        have := hov (by omega)
        omega
      constructor
      · refine List.pairwise_cons.mpr ⟨?_, hchain⟩
        intro y hy
        have hym := hmem y hy
        have hys : m.start ≤ y.start := by
          simp only [List.mem_cons] at hym
          rcases hym with rfl | hym
          · exact le_refl _
          · exact hm y hym
        omega
      · intro x hx
        simp only [List.mem_cons] at hx ⊢
        rcases hx with rfl | hx
        · simp
        · have := hmem x hx
          simp only [List.mem_cons] at this
          tauto

/-- The sweep on any start-sorted list of nonempty-span candidates yields a
chain of non-overlapping spans drawn from its input. -/
theorem resolveSweep_spec {l : List Cand}
    (hwf : ∀ x ∈ l, x.start < x.stop)
    (hsort : l.Pairwise fun a b => a.start ≤ b.start) :
    (resolveSweep l).Pairwise (fun a b => a.stop ≤ b.start) ∧
    (∀ x ∈ resolveSweep l, x ∈ l) := by
  match l with
  | [] => simp [resolveSweep]
  | w :: rest => exact sweepGo_spec rest w hwf hsort


/-- C1: for every input text and every compiled configuration, the list
returned by `findMatches` is sorted in ascending start order, no two
returned matches overlap (each match's end is at most the next match's
start), every returned span satisfies `0 <= start < end <= text length`
(`start` is a `Nat`, hence `0 <= start`), and no zero-length match is ever
emitted (`start < end`). -/
theorem c1_findMatches_output_invariants (t : List Char) (compiled : CompiledConfig) :
    (findMatches t compiled).Pairwise
      (fun a b => a.start < b.start ∧ a.stop ≤ b.start) ∧
    ∀ m ∈ findMatches t compiled, m.start < m.stop ∧ m.stop ≤ t.length := by
  unfold findMatches
  set ir := ignoreRangesOf t compiled.ignoreCompiled with hir
  set allM := collectAll t compiled.compiledCategories with hall
  set filtered := (if ir.isEmpty then allM
    else allM.filter fun m => keepV6 ir m.start m.stop) with hfil
  have hfsub : ∀ x ∈ filtered, x ∈ allM := by
    intro x hx
    rw [hfil] at hx
    by_cases hq : ir.isEmpty
    · rwa [if_pos hq] at hx
    · rw [if_neg hq] at hx
      exact List.mem_of_mem_filter hx
  have hwf : ∀ x ∈ filtered, x.start < x.stop ∧ x.stop ≤ t.length :=
    fun x hx => collectAll_mem_bounds (hfsub x hx)
  by_cases hemp : filtered.isEmpty
  · rw [if_pos hemp]
    exact ⟨List.Pairwise.nil, by simp⟩
  · rw [if_neg hemp]
    have hwfs : ∀ x ∈ sortCands filtered, x.start < x.stop :=
      fun x hx => (hwf x (mem_sortCands hx)).1
    obtain ⟨hchain, hmem⟩ :=
      resolveSweep_spec hwfs (sortCands_start_mono filtered)
    have hbnd : ∀ x ∈ resolveSweep (sortCands filtered),
        x.start < x.stop ∧ x.stop ≤ t.length :=
      fun x hx => hwf x (mem_sortCands (hmem x hx))
    constructor
    · rw [List.pairwise_map]
      simp only [stripCand]
      refine hchain.imp_of_mem ?_
      intro a b ha _ hab
      have := hbnd a ha
      exact ⟨by omega, hab⟩
    · intro m hm
      rw [List.mem_map] at hm
      obtain ⟨c, hc, rfl⟩ := hm
      simpa [stripCand] using hbnd c hc


/-! ### C2: the resolver processing order -/

/-- Transcribed from the spec's words (Step 4, first sentence): the claimed
sort order for surviving candidates — ascending `start`; on a tie the
non-wildcard candidate first; then the lower `priorityIndex`; then the
longer span; then the earlier `end`. -/
def specSortBefore (a b : Cand) : Bool :=
  decide (a.start < b.start) ||
  (decide (a.start = b.start) &&
    (if a.isWildcard ≠ b.isWildcard then !a.isWildcard
     else if a.priority ≠ b.priority then decide (a.priority < b.priority)
     else if a.stop - a.start ≠ b.stop - b.start then
       decide (b.stop - b.start < a.stop - a.start)
     else decide (a.stop < b.stop)))

/-- Transcribed from the spec's words (Step 4, replacement rule): the
challenger `c` is strictly better than the incumbent `w` when the
non-wildcard beats the wildcard; else the lower `priorityIndex` wins; else
the longer span wins; else the earlier start wins; else the earlier end
wins. -/
def specBetter (c w : Cand) : Bool :=
  if c.isWildcard ≠ w.isWildcard then !c.isWildcard
  else if c.priority ≠ w.priority then decide (c.priority < w.priority)
  else if c.stop - c.start ≠ w.stop - w.start then
    decide (w.stop - w.start < c.stop - c.start)
  else if c.start ≠ w.start then decide (c.start < w.start)
  else if c.stop ≠ w.stop then decide (c.stop < w.stop)
  else false

theorem c2_amended_resolver_order_aux (a b : Cand) :
    pickBetterOverlap a b = if specBetter b a then b else a := by
  unfold pickBetterOverlap specBetter
  by_cases h1 : a.isWildcard = b.isWildcard
  · rw [if_neg (show ¬(a.isWildcard ≠ b.isWildcard) by simp [h1]),
        if_neg (show ¬(b.isWildcard ≠ a.isWildcard) by simp [h1])]
    by_cases h2 : a.priority = b.priority
    · rw [if_neg (show ¬(a.priority ≠ b.priority) by omega),
          if_neg (show ¬(b.priority ≠ a.priority) by omega)]
      by_cases h3 : a.stop - a.start = b.stop - b.start
      · rw [if_neg (show ¬(a.stop - a.start ≠ b.stop - b.start) by omega),
            if_neg (show ¬(b.stop - b.start ≠ a.stop - a.start) by omega)]
        by_cases h4 : a.start = b.start
        · rw [if_neg (show ¬(a.start ≠ b.start) by omega),
              if_neg (show ¬(b.start ≠ a.start) by omega)]
          by_cases h5 : a.stop = b.stop
          · rw [if_neg (show ¬(a.stop ≠ b.stop) by omega),
                if_neg (show ¬(b.stop ≠ a.stop) by omega)]
            simp
          · rw [if_pos (show a.stop ≠ b.stop by omega),
                if_pos (show b.stop ≠ a.stop by omega)]
            by_cases h6 : a.stop < b.stop
            · rw [if_pos h6]
              simp [show ¬(b.stop < a.stop) by omega]
            · rw [if_neg h6]
              simp [show b.stop < a.stop by omega]
        · rw [if_pos (show a.start ≠ b.start by omega),
              if_pos (show b.start ≠ a.start by omega)]
          by_cases h6 : a.start < b.start
          · rw [if_pos h6]
            simp [show ¬(b.start < a.start) by omega]
          · rw [if_neg h6]
            simp [show b.start < a.start by omega]
      · rw [if_pos (show a.stop - a.start ≠ b.stop - b.start by omega),
            if_pos (show b.stop - b.start ≠ a.stop - a.start by omega)]
        by_cases h6 : b.stop - b.start < a.stop - a.start
        · rw [if_pos h6]
          simp [show ¬(a.stop - a.start < b.stop - b.start) by omega]
        · rw [if_neg h6]
          simp [show a.stop - a.start < b.stop - b.start by omega]
    · rw [if_pos (show a.priority ≠ b.priority by omega),
          if_pos (show b.priority ≠ a.priority by omega)]
      by_cases h6 : a.priority < b.priority
      · rw [if_pos h6]
        simp [show ¬(b.priority < a.priority) by omega]
      · rw [if_neg h6]
        simp [show b.priority < a.priority by omega]
  · rw [if_pos h1, if_pos (Ne.symm h1)]
    cases haw : a.isWildcard <;> cases hbw : b.isWildcard
    · exact absurd (haw.trans hbw.symm) h1
    · simp [haw, hbw]
    · simp [haw, hbw]
    · exact absurd (haw.trans hbw.symm) h1

/-- C2, counterexample: the claim's sort order is not the code's.  With the
wildcard candidate `a = [0,5), priority 1, wildcard` and the non-wildcard
candidate `b = [0,3), priority 0, non-wildcard`, the claimed order demands
`b` strictly before `a` (non-wildcard first on a start tie), but the code's
comparator (start, then longer span, then priority) processes `a` first. -/
theorem c2_counterexample :
    sortCands [⟨0, 5, "A", none, none, 1, true⟩, ⟨0, 3, "B", none, none, 0, false⟩] =
      [⟨0, 5, "A", none, none, 1, true⟩, ⟨0, 3, "B", none, none, 0, false⟩] ∧
    specSortBefore ⟨0, 3, "B", none, none, 0, false⟩ ⟨0, 5, "A", none, none, 1, true⟩ = true := by
  decide

/-- C2, amended: surviving candidates are processed in ascending start
order with ties broken by the longer span first and then the lower
`priorityIndex` (wildcard status and `end` play no role in the sort);
during the sweep an overlapping challenger replaces the current winner
exactly when it is strictly better under the order: non-wildcard beats
wildcard, else lower `priorityIndex`, else longer span, else earlier
start, else earlier end — and is discarded otherwise. -/
theorem c2_resolver_order :
    (∀ l : List Cand, (sortCands l).Pairwise fun a b => candLT b a = false) ∧
    (∀ a b : Cand, pickBetterOverlap a b = if specBetter b a then b else a) :=
  ⟨sortCands_pairwise, c2_amended_resolver_order_aux⟩


/-! ### C3: specificity precedence -/

/-- C3: when two enabled categories produce overlapping candidates at the
same text span — the higher-priority (lower `priorityIndex`) one from a
wildcard pattern, the lower-priority one from a non-wildcard pattern — the
scan output contains the non-wildcard match and not the wildcard one. -/
theorem c3_specificity_precedence (t : List Char) (cc : CompiledConfig)
    (a b : Cand)
    (hig : cc.ignoreCompiled = none)
    (hpool : collectAll t cc.compiledCategories = [a, b])
    (haw : a.isWildcard = true) (hbw : b.isWildcard = false)
    (hpr : a.priority < b.priority)
    (hs : a.start = b.start) (he : a.stop = b.stop) :
    findMatches t cc = [stripCand b] := by
  have hista : a.start < a.stop :=
    (collectAll_mem_bounds (c := a) (by rw [hpool]; simp)).1
  have hlt : candLT b a = false := by
    unfold candLT
    simp only [Bool.or_eq_false_iff, Bool.and_eq_false_iff,
      decide_eq_false_iff_not]
    omega
  have hsort : sortCands [a, b] = [a, b] := by
    show insertCand b (insertCand a []) = [a, b]
    have h0 : insertCand a ([] : List Cand) = [a] := rfl
    rw [h0]
    show (if candLT b a = true then b :: a :: [] else a :: insertCand b []) = [a, b]
    rw [if_neg (show ¬(candLT b a = true) by simp [hlt])]
    rfl
  have hpick : pickBetterOverlap a b = b := by
    unfold pickBetterOverlap
    rw [if_pos (show a.isWildcard ≠ b.isWildcard by rw [haw, hbw]; simp),
        if_pos haw]
  unfold findMatches
  rw [hig, hpool]
  simp only [ignoreRangesOf, List.isEmpty_nil, if_true]
  rw [if_neg (by simp)]
  rw [hsort]
  show (sweepGo a [b]).map stripCand = [stripCand b]
  unfold sweepGo
  rw [if_pos (show (b.start < a.stop && b.stop > a.start) = true by
    simp only [Bool.and_eq_true, decide_eq_true_eq, gt_iff_lt]
    omega)]
  rw [hpick]
  simp [sweepGo]

/-- C3, witness: with category 0 holding the wildcard pattern `sh*t` and
category 1 the non-wildcard pattern `shirt`, both matching the whole of the
text `shirt` at span `[0, 5)`, the scan returns the non-wildcard category's
match only. -/
theorem c3_specificity_precedence_witness :
    findMatches ("shirt".toList)
      (compileAll ⟨[],
        [⟨"w", "W", none, none, some true, [JSVal.strv "sh*t"]⟩,
         ⟨"s", "S", none, none, some true, [JSVal.strv "shirt"]⟩]⟩) =
    [⟨0, 5, "S", none, none⟩] :=
  c3_specificity_precedence _ _
    ⟨0, 5, "W", none, none, 0, true⟩ ⟨0, 5, "S", none, none, 1, false⟩
    rfl (by decide) rfl rfl (by decide) rfl rfl


/-! ### C4: the v6 binary-search ignore filter -/

/-- C4: the v6 binary-search ignore filter is not equivalent to the naive
linear filter of v5, and a candidate overlapping an ignore range can
survive it.  The binary search assumes the ranges are ordered by `end`, but
`findMatches` sorts them by `start`; with the nested ignore ranges
`[0,9), [2,4), [5,7)` — produced on the text `a bb cc d` by the ignore list
`["a * d", "bb", "cc"]`, whose with-space wildcard entry covers both simple
entries — the probe for the candidate `d` at `[8, 9)` steps past the
enclosing range `[0,9)`: v6 keeps the candidate, v5 drops it, and the
ignored span is emitted in the final output. -/
theorem c4_ignore_filter_bug :
    ignoreRangesOf ("a bb cc d".toList)
      (compileAll ⟨[JSVal.strv "a * d", JSVal.strv "bb", JSVal.strv "cc"],
        [⟨"d", "D", none, none, some true, [JSVal.strv "d"]⟩]⟩).ignoreCompiled =
      [⟨0, 9⟩, ⟨2, 4⟩, ⟨5, 7⟩] ∧
    keepV6 [⟨0, 9⟩, ⟨2, 4⟩, ⟨5, 7⟩] 8 9 = true ∧
    keepV5 [⟨0, 9⟩, ⟨2, 4⟩, ⟨5, 7⟩] 8 9 = false ∧
    findMatches ("a bb cc d".toList)
      (compileAll ⟨[JSVal.strv "a * d", JSVal.strv "bb", JSVal.strv "cc"],
        [⟨"d", "D", none, none, some true, [JSVal.strv "d"]⟩]⟩) =
      [⟨8, 9, "D", none, none⟩] := by
  refine ⟨by decide, by decide, by decide, by decide⟩


/-! ### C5: wildcard token containment -/

/-- A successful `exec` span is an alternation match at its start. -/
theorem execFromF_matchRexAt {r : Rex} {t : List Char} :
    ∀ {fuel i p e : Nat}, execFromF r t fuel i = some (p, e) →
      matchRexAt r t p = some e := by
  intro fuel
  induction fuel with
  | zero => intro i p e h; simp [execFromF] at h
  | succ n ih =>
    intro i p e h
    simp only [execFromF] at h
    by_cases hi : t.length < i
    · rw [if_pos hi] at h; simp at h
    · rw [if_neg hi] at h
      cases hm : matchRexAt r t i with
      | some e₀ =>
        simp only [hm, Option.some.injEq, Prod.mk.injEq] at h
        obtain ⟨rfl, rfl⟩ := h
        exact hm
      | none =>
        simp only [hm] at h
        exact ih h

/-- Every span the scan loop collects is an alternation match at its
start. -/
theorem scanLoopF_matchRexAt {r : Rex} {t : List Char} :
    ∀ {fuel li p e : Nat}, (p, e) ∈ (scanLoopF r t fuel li).1 →
      matchRexAt r t p = some e := by
  intro fuel
  induction fuel with
  | zero => intro li p e h; simp [scanLoopF] at h
  | succ n ih =>
    intro li p e h
    simp only [scanLoopF] at h
    cases hx : execFrom r t li with
    | none => simp only [hx] at h; simp at h
    | some pe =>
      obtain ⟨p₀, e₀⟩ := pe
      simp only [hx] at h
      by_cases he : e₀ = p₀
      · rw [if_pos he] at h
        exact ih h
      · rw [if_neg he] at h
        simp only [List.mem_cons, Prod.mk.injEq] at h
        rcases h with ⟨rfl, rfl⟩ | h
        · exact execFromF_matchRexAt hx
        · exact ih h

/-- A scanned span of a regex whose atoms are all whitespace-free covers no
whitespace character. -/
theorem scanRex_wsFree {r : Rex}
    (hfree : ∀ w ∈ r.words, ∀ f ∈ w.frags, wsFreeFrag f = true)
    {t : List Char} {pe : Nat × Nat} (hpe : pe ∈ scanRex r t) :
    ∀ i c, pe.1 ≤ i → i < pe.2 → t[i]? = some c → isWs c = false := by
  obtain ⟨p, e⟩ := pe
  have hm := scanLoopF_matchRexAt hpe
  obtain ⟨w, hw, hmf⟩ := List.exists_of_findSome?_eq_some hm
  intro i c hi hie hc
  exact matchFragsF_wsFree (hfree w hw) hmf i hi hie c hc

/-- The configuration holding only the pattern `sh*t` (one enabled
category, no ignore list), as in the spec's wildcard-containment test. -/
def shitCfg : Config :=
  ⟨[], [⟨"p", "PRF", none, none, some true, [JSVal.strv "sh*t"]⟩]⟩

/-- C5: the middle `*` of the space-free pattern `sh*t` compiles to the
lazy whitespace-excluding star, so every span its compiled regex ever
reports consists of non-whitespace characters only; concretely, the scan
matches `shit` (span `[0,4)`) in `shit happens` and produces no match at
all — in particular none spanning from `should` to `mat` — on
`This should never match`. -/
theorem c5_wildcard_token_containment :
    (∀ (t : List Char) (cat : CompiledCat) (rx : Rex) (pe : Nat × Nat),
        cat ∈ (compileAll shitCfg).compiledCategories → rx ∈ cat.regexes →
        pe ∈ scanRex rx t →
        ∀ i c, pe.1 ≤ i → i < pe.2 → t[i]? = some c → isWs c = false) ∧
    findMatches ("shit happens".toList) (compileAll shitCfg) =
      [⟨0, 4, "PRF", none, none⟩] ∧
    findMatches ("This should never match".toList) (compileAll shitCfg) = [] := by
  refine ⟨?_, by decide, by decide⟩
  intro t cat rx pe hcat hrx hpe i c h1 h2 h3
  have hcats : (compileAll shitCfg).compiledCategories =
      [⟨"p", "PRF", none, none,
        [⟨[⟨[Frag.lit 's', Frag.lit 'h', Frag.midStarNoSpace, Frag.lit 't'], 4⟩],
          false, true⟩]⟩] := by decide
  rw [hcats, List.mem_singleton] at hcat
  subst hcat
  rw [List.mem_singleton] at hrx
  subst hrx
  exact scanRex_wsFree (by decide) hpe i c h1 h2 h3

/-- C5, witness: instantiating the containment statement on the text
`shit`, whose span `[0,4)` the compiled `sh*t` regex reports, at position 1
(the character `h`). -/
theorem c5_wildcard_token_containment_witness : isWs 'h' = false :=
  c5_wildcard_token_containment.1 ("shit".toList)
    ⟨"p", "PRF", none, none,
      [⟨[⟨[Frag.lit 's', Frag.lit 'h', Frag.midStarNoSpace, Frag.lit 't'], 4⟩],
        false, true⟩]⟩
    ⟨[⟨[Frag.lit 's', Frag.lit 'h', Frag.midStarNoSpace, Frag.lit 't'], 4⟩],
      false, true⟩
    (0, 4) (by decide) (by decide) (by decide) 1 'h'
    (by decide) (by decide) (by decide)


/-! ### C6: boundary correctness -/

/-- C6: the pattern `\x20elf\x20` (leading and trailing whitespace)
matches only boundary-delimited occurrences and its span is exactly the
three characters of `elf` — the boundary assertions consume nothing — so it
matches `[9,12)` in `I bought elf makeup` and nothing in `herself`, while
the plain pattern `elf` matches in both texts. -/
theorem c6_boundary_correctness :
    findMatches ("I bought elf makeup".toList)
      (compileAll ⟨[], [⟨"r", "RET", none, none, some true, [JSVal.strv " elf "]⟩]⟩) =
      [⟨9, 12, "RET", none, none⟩] ∧
    findMatches ("herself".toList)
      (compileAll ⟨[], [⟨"r", "RET", none, none, some true, [JSVal.strv " elf "]⟩]⟩) = [] ∧
    findMatches ("I bought elf makeup".toList)
      (compileAll ⟨[], [⟨"r", "RET", none, none, some true, [JSVal.strv "elf"]⟩]⟩) =
      [⟨9, 12, "RET", none, none⟩] ∧
    findMatches ("herself".toList)
      (compileAll ⟨[], [⟨"r", "RET", none, none, some true, [JSVal.strv "elf"]⟩]⟩) =
      [⟨4, 7, "RET", none, none⟩] := by
  refine ⟨by decide, by decide, by decide, by decide⟩

/-! ### C7: literal spaces in patterns -/

/-- A text character matches the literal pattern character `\x20` exactly
when it is itself a space: the `i` flag's folding never maps anything else
onto code 32. -/
theorem charMatch_space (cs : Bool) (tc : Char) :
    charMatch cs tc ' ' = true ↔ tc = ' ' := by
  have hinj : tc.toNat = 32 → tc = ' ' := by
    intro h
    have := Char.ofNat_toNat tc
    rw [h] at this
    simpa using this.symm
  have h32 : (' ').toNat = 32 := rfl
  unfold charMatch
  cases cs
  · rw [if_neg (show ¬(false = true) by simp)]
    simp only [Bool.or_eq_true, Bool.and_eq_true, beq_iff_eq, decide_eq_true_eq]
    constructor
    · rintro (h | ⟨⟨h1, h2⟩, h3⟩)
      · exact hinj (by omega)
      · exfalso
        omega
    · rintro rfl
      exact Or.inl rfl
  · rw [if_pos rfl, beq_iff_eq]
    constructor
    · intro h
      exact hinj (by omega)
    · rintro rfl
      rfl

/-- C7, counterexample: the pattern `best buy` does not match when its
words are separated by two spaces or by a newline — a literal pattern space
requires exactly one space character, not a whitespace run — while the same
compiled pattern does match the single-space text (span `[0,8)`). -/
theorem c7_counterexample :
    findMatches ("best  buy".toList)
      (compileAll ⟨[], [⟨"r", "R", none, none, some true, [JSVal.strv "best buy"]⟩]⟩) = [] ∧
    findMatches ("best\nbuy".toList)
      (compileAll ⟨[], [⟨"r", "R", none, none, some true, [JSVal.strv "best buy"]⟩]⟩) = [] ∧
    findMatches ("best buy".toList)
      (compileAll ⟨[], [⟨"r", "R", none, none, some true, [JSVal.strv "best buy"]⟩]⟩) =
      [⟨0, 8, "R", none, none⟩] := by
  refine ⟨by decide, by decide, by decide⟩

/-- C7, amended: a literal space character inside a pattern is emitted as
the literal atom `\x20` (the escaping branch of `globToRegexFragment`
passes it through), and that atom matches exactly one space character of
the text at that position — so multi-space or newline-separated input does
not match there unless an adjacent with-space wildcard absorbs the extra
whitespace.  Concretely, `best buy` matches `best buy` at `[0,8)` and does
not match `best  buy`. -/
theorem c7_literal_space :
    (∀ (hs : Bool) (n i : Nat), fragFor hs n i ' ' = Frag.lit ' ') ∧
    (∀ (cs : Bool) (t : List Char) (fuel : Nat) (fs : List Frag) (p : Nat),
      matchFragsF cs t (fuel + 1) (Frag.lit ' ' :: fs) p =
        if t[p]? = some ' ' then matchFragsF cs t fuel fs (p + 1) else none) ∧
    findMatches ("best buy".toList)
      (compileAll ⟨[], [⟨"r", "R", none, none, some true, [JSVal.strv "best buy"]⟩]⟩) =
      [⟨0, 8, "R", none, none⟩] ∧
    findMatches ("best  buy".toList)
      (compileAll ⟨[], [⟨"r", "R", none, none, some true, [JSVal.strv "best buy"]⟩]⟩) = [] := by
  refine ⟨?_, ?_, by decide, by decide⟩
  · intro hs n i
    unfold fragFor
    rw [if_neg (by decide), if_neg (by decide)]
  · intro cs t fuel fs p
    simp only [matchFragsF]
    cases hg : t[p]? with
    | none => simp [hg]
    | some tc =>
      simp only [hg]
      by_cases hm : charMatch cs tc ' '
      · rw [if_pos hm, if_pos (by rw [(charMatch_space cs tc).mp hm])]
      · rw [if_neg hm, if_neg (by
          intro hq
          rw [Option.some.injEq] at hq
          exact hm ((charMatch_space cs tc).mpr hq))]


/-! ### C8, C9: effects on the compiled configuration, determinism -/

/-- One scan leaves every regex object equal to its original except that
`lastIndex` is 0: the final failing `exec` of each loop resets it. -/
theorem findMatchesSt_state (t : List Char) (s : CompiledConfigSt) :
    (findMatchesSt t s).2 = zeroSt s := by
  unfold findMatchesSt zeroSt stepCatSt zeroCatSt stepRexSt
  simp only [scanLoopF_lastIndex_zero]

/-- C8, counterexample: a call to `findMatchesSt` does mutate the compiled
configuration when a regex's `lastIndex` is nonzero on entry — here a
configuration holding one regex for the word `a` with `lastIndex = 5` comes
back with `lastIndex = 0`. -/
theorem c8_counterexample :
    (findMatchesSt ("x".toList)
      ⟨none, [⟨"r", "R", none, none,
        [⟨⟨[⟨[Frag.lit 'a'], 1⟩], false, false⟩, 5⟩]⟩]⟩).2 ≠
    (⟨none, [⟨"r", "R", none, none,
      [⟨⟨[⟨[Frag.lit 'a'], 1⟩], false, false⟩, 5⟩]⟩]⟩ : CompiledConfigSt) := by
  decide

/-- C8, amended: `findMatches` writes only the `lastIndex` property of each
compiled regex — the returned configuration is the input with every
`lastIndex` set to 0 and every other field untouched — so a configuration
whose regexes all carry `lastIndex = 0`, as `compileAll` produces and as
every scan leaves behind, is unchanged after the call. -/
theorem c8_compiled_config_effects :
    (∀ (t : List Char) (s : CompiledConfigSt), (findMatchesSt t s).2 = zeroSt s) ∧
    (∀ (t : List Char) (s : CompiledConfigSt), s = zeroSt s →
      (findMatchesSt t s).2 = s) :=
  ⟨findMatchesSt_state,
   fun t s h => (findMatchesSt_state t s).trans h.symm⟩

/-- Forgetting the mutable state commutes with zeroing it. -/
theorem stripSt_zeroSt (s : CompiledConfigSt) : stripSt (zeroSt s) = stripSt s := by
  unfold stripSt zeroSt zeroCatSt stripCatSt
  simp [Option.map_map, List.map_map, Function.comp_def]

/-- C9: the match list of a scan depends only on the immutable compiled
data — the stored `lastIndex` values never influence it, because the scan
loop starts from an explicit reset — so any two calls on state-equivalent
configurations (and in particular a repeated call on the same mutable
configuration) return identical match lists; and `compileAllSt` is a pure
function of the configuration whose output carries fresh zero state. -/
theorem c9_purity_determinism :
    (∀ (t : List Char) (s : CompiledConfigSt),
      (findMatchesSt t s).1 = findMatches t (stripSt s)) ∧
    (∀ (t : List Char) (s₁ s₂ : CompiledConfigSt), stripSt s₁ = stripSt s₂ →
      (findMatchesSt t s₁).1 = (findMatchesSt t s₂).1) ∧
    (∀ (t : List Char) (s : CompiledConfigSt),
      (findMatchesSt t ((findMatchesSt t s).2)).1 = (findMatchesSt t s).1) ∧
    (∀ config : Config, stripSt (compileAllSt config) = compileAll config ∧
      zeroSt (compileAllSt config) = compileAllSt config) := by
  refine ⟨fun t s => rfl, ?_, ?_, ?_⟩
  · intro t s₁ s₂ h
    show findMatches t (stripSt s₁) = findMatches t (stripSt s₂)
    rw [h]
  · intro t s
    show findMatches t (stripSt (findMatchesSt t s).2) = findMatches t (stripSt s)
    rw [findMatchesSt_state, stripSt_zeroSt]
  · intro config
    constructor
    · unfold compileAllSt stripSt stripCatSt freshCatSt
      cases hc : compileAll config with
      | mk ig cats =>
        simp [Option.map_map, List.map_map, Function.comp_def]
    · unfold compileAllSt zeroSt zeroCatSt freshCatSt
      simp [Option.map_map, List.map_map, Function.comp_def]

/-! ### C10: parser totality and skip behaviour -/

/-- The text of a raw entry after coercion, prefix stripping and trimming —
the value whose emptiness makes `parseWordEntry` return the skip signal. -/
def strippedCore (raw : JSVal) : List Char :=
  let t0 := (jsCoerce raw).toList
  let t1 := if ("CS:".toList).isPrefixOf t0 then t0.drop 3 else t0
  let t2 := if ("//".toList).isPrefixOf t1 then t1.drop 2 else t1
  trimList t2

/-- Dropping a word whose parse is the skip signal does not change the
compiled category: the bucket fold ignores it and every other word still
compiles. -/
theorem compileCategory_skip (cat : Category) (ws1 ws2 : List JSVal)
    (d : JSVal) (hd : parseWordEntry d = none) :
    compileCategory { cat with words := ws1 ++ d :: ws2 } =
    compileCategory { cat with words := ws1 ++ ws2 } := by
  unfold compileCategory
  have h : ∀ bs : Buckets,
      (ws1 ++ d :: ws2).foldl
        (fun bs w => match parseWordEntry w with
          | none => bs
          | some parsed => pushBucket bs parsed) bs =
      (ws1 ++ ws2).foldl
        (fun bs w => match parseWordEntry w with
          | none => bs
          | some parsed => pushBucket bs parsed) bs := by
    intro bs
    rw [List.foldl_append, List.foldl_append, List.foldl_cons]
    congr 1
    simp [hd]
  simp only [h]

/-- C10: `parseWordEntry` (v6) is total over the raw JavaScript values —
`null`, `undefined` and other non-strings are coerced through
`String(rawEntry || "")` — it returns the skip signal `none` exactly when
nothing remains after prefix stripping and trimming, and `compileCategory`
silently drops such an entry, so one degenerate entry never aborts
compilation of the remaining words of its category. -/
theorem c10_parse_totality :
    parseWordEntry JSVal.nullv = none ∧
    parseWordEntry JSVal.undef = none ∧
    parseWordEntry (JSVal.numv 0) = none ∧
    parseWordEntry (JSVal.strv "CS://   ") = none ∧
    parseWordEntry (JSVal.numv 7) = parseWordEntry (JSVal.strv "7") ∧
    (∀ raw : JSVal, parseWordEntry raw = none ↔ strippedCore raw = []) ∧
    (∀ (cat : Category) (ws1 ws2 : List JSVal) (d : JSVal),
      parseWordEntry d = none →
      compileCategory { cat with words := ws1 ++ d :: ws2 } =
      compileCategory { cat with words := ws1 ++ ws2 }) := by
  refine ⟨by decide, by decide, by decide, by decide, by decide, ?_,
    compileCategory_skip⟩
  intro raw
  constructor
  · intro h
    by_contra hne
    obtain ⟨p, hp⟩ : ∃ p, parseWordEntry raw = some p := ⟨_, if_neg hne⟩
    rw [h] at hp
    cases hp
  · intro h
    exact if_pos h

end Matcher
